import Mathlib

/-!
Verification of the path-trie aggregation and rendering engine of
`file_usage` (`file_usage/file_usage.py`).

Python strings are modelled as `List Char`, Python floats as `ℚ` (exact
arithmetic in place of IEEE doubles), Python dictionaries as association
lists: new keys are appended at the end, updates keep the position of
the key, and the list order stands for the order in which the dictionary
enumerates its entries.  This is a Python 2 program, whose dictionaries
enumerate in hash-slot order rather than insertion order, so theorems
whose truth could depend on enumeration order quantify over every
association-list order, and concrete evaluations choose keys whose
CPython 2 hash-slot order coincides with the model's list order.
Fallible code is modelled with `Except`:
`SizeErr` covers the `exit(...)` call and the uncaught `KeyError` in
`size_in_bytes`, `RErr.divZero` covers the `ZeroDivisionError` raised by
`is_big_enough` when `total_size` is zero.  Unbounded loops carry an
explicit fuel argument; exhausted fuel is reported as `RErr.fuel` (or a
degenerate result for `splitall`, whose fuel is shown sufficient below).
-/

namespace FileUsage

/-- Python strings (both paths and path components) as lists of characters. -/
abbrev Str := List Char

/-- Conversion from Lean string literals, used for concrete test inputs. -/
def strL (s : String) : Str := s.toList

/-- The whitespace characters recognised by Python 2 `str.strip()` and
`str.split()` on byte strings. -/
def pySpace (c : Char) : Bool :=
  c = ' ' ∨ c = '\t' ∨ c = '\n' ∨ c = '\r' ∨ c = '\x0b' ∨ c = '\x0c'

/-- `len(item.strip()) == 0`: the component is empty or all whitespace. -/
def isBlank (s : Str) : Bool := s.all pySpace

/-- The path separator test of `os.path.split`. -/
def isSep (c : Char) : Bool := c = '/'

/-- Negation of `isSep`, used to locate the last separator. -/
def notSep (c : Char) : Bool := !isSep c

/-- The head of `os.path.split` before stripping trailing separators:
everything up to and including the last slash. -/
def osHead0 (p : Str) : Str := (p.reverse.dropWhile notSep).reverse

/-- The head of `os.path.split` for POSIX paths: trailing slashes are
stripped unless the head is empty or consists entirely of slashes. -/
def osHead (p : Str) : Str :=
  if (osHead0 p).isEmpty || (osHead0 p).all isSep then osHead0 p
  else ((osHead0 p).reverse.dropWhile isSep).reverse

/-- The tail of `os.path.split`: everything after the last slash. -/
def osTail (p : Str) : Str := (p.reverse.takeWhile notSep).reverse

/-- `os.path.split` for POSIX paths: split at the last slash; the head
keeps its trailing slashes only when it consists entirely of slashes. -/
def osPathSplit (p : Str) : Str × Str := (osHead p, osTail p)

@[simp] theorem osPathSplit_fst (p : Str) : (osPathSplit p).1 = osHead p := rfl

@[simp] theorem osPathSplit_snd (p : Str) : (osPathSplit p).2 = osTail p := rfl

/-- The `while 1` loop of `splitall` (file_usage.py lines 85-97), with an
explicit fuel argument.  The fuel is never exhausted when it starts at
`p.length + 1` (see `splitallGo_fuel_irrelevant`). -/
def splitallGo : ℕ → Str → List Str
  | 0, path => [path]
  | fuel + 1, path =>
    let parts := osPathSplit path
    if parts.1 = path then [parts.1]
    else if parts.2 = path then [parts.2]
    else splitallGo fuel parts.1 ++ [parts.2]

/-- `splitall` (file_usage.py lines 70-97): split a file path into a list
of components. -/
def splitall (path : Str) : List Str := splitallGo (path.length + 1) path

/-- In the non-sentinel branch of the `splitall` loop the head of the
split is strictly shorter than the path, so the loop terminates. -/
theorem osHead_length_lt (p : Str) (h1 : osHead p ≠ p) :
    (osHead p).length < p.length := by
  have hsum : (p.reverse.takeWhile notSep).length + (p.reverse.dropWhile notSep).length
      = p.length := by
    have h := congrArg List.length (List.takeWhile_append_dropWhile notSep p.reverse)
    simp only [List.length_append, List.length_reverse] at h
    omega
  by_cases htl : p.reverse.takeWhile notSep = []
  · -- the tail of the split is empty, so the head before stripping is p itself
    have hhd : p.reverse.dropWhile notSep = p.reverse := by
      have h := List.takeWhile_append_dropWhile notSep p.reverse
      rw [htl] at h
      simpa using h
    have h0 : osHead0 p = p := by
      rw [osHead0, hhd, List.reverse_reverse]
    rw [osHead, h0] at h1 ⊢
    by_cases hc : p.isEmpty || p.all isSep
    · rw [if_pos hc] at h1
      exact absurd rfl h1
    · rw [if_neg hc] at h1 ⊢
      have hsub : (p.reverse.dropWhile isSep).Sublist p.reverse :=
        List.dropWhile_sublist _
      have hle := hsub.length_le
      simp only [List.length_reverse] at hle ⊢
      rcases Nat.lt_or_ge (p.reverse.dropWhile isSep).length p.length with hlt | hge

      · exact hlt
      · exfalso
        have heq : (p.reverse.dropWhile isSep).length = p.reverse.length := by
          simp only [List.length_reverse]; omega
        have hdrop := hsub.eq_of_length heq
        apply h1
        rw [hdrop, List.reverse_reverse]
  · -- the tail is nonempty, so the head before stripping is already shorter
    have htlen : 0 < (p.reverse.takeWhile notSep).length := List.length_pos.mpr htl
    have hlt0 : (osHead0 p).length < p.length := by
      simp only [osHead0, List.length_reverse]
      omega
    rw [osHead]
    by_cases hc : (osHead0 p).isEmpty || (osHead0 p).all isSep
    · rw [if_pos hc]
      exact hlt0
    · rw [if_neg hc]
      have hsub : ((osHead0 p).reverse.dropWhile isSep).Sublist (osHead0 p).reverse :=
        List.dropWhile_sublist _
      have hle := hsub.length_le
      simp only [List.length_reverse] at hle ⊢
      omega

/-- Any two sufficient fuels give the same result for the `splitall` loop,
so `splitall`'s choice of `p.length + 1` models the unbounded Python loop. -/
theorem splitallGo_fuel_irrelevant :
    ∀ (f₁ : ℕ) (path : Str) (f₂ : ℕ), path.length < f₁ → path.length < f₂ →
      splitallGo f₁ path = splitallGo f₂ path := by
  intro f₁
  induction f₁ with
  | zero => intro path f₂ h1 _; omega
  | succ g ih =>
    intro path f₂ h1 h2
    match f₂, h2 with
    | f₂' + 1, h2 =>
      simp only [splitallGo, osPathSplit_fst, osPathSplit_snd]
      by_cases hA : osHead path = path
      · simp [hA]
      · by_cases hB : osTail path = path
        · simp [hA, hB]
        · simp only [hA, hB, if_neg, not_false_iff]
          have hlt : (osHead path).length < path.length := osHead_length_lt path hA
          have := ih (osHead path) f₂' (by omega) (by omega)
          rw [this]

/-- Doctest of `splitall` (file_usage.py lines 73-82). -/
theorem splitall_doctests :
    splitall (strL "/hsm/VR0182/shared/Data") =
        [strL "/", strL "hsm", strL "VR0182", strL "shared", strL "Data"] ∧
      splitall (strL "//") = [strL "//"] ∧
      splitall (strL "/foo//bar") = [strL "/", strL "foo", strL "bar"] :=
  ⟨rfl, rfl, rfl⟩

/-- User information for a single node of the file tree
(file_usage.py lines 160-179). -/
structure User where
  name : Str
  file_size : ℚ
  count : ℕ
deriving DecidableEq

/-- `User.size` (line 178). -/
def User.size (u : User) : ℚ := u.file_size

/-- A node in the file tree (lines 190-211): a dictionary of children and
a dictionary of per-user stats, both as association lists in insertion
order. -/
inductive Node where
  | mk (children : List (Str × Node)) (users : List (Str × User))

/-- The children dictionary of a node. -/
def Node.children : Node → List (Str × Node)
  | .mk c _ => c

/-- The users dictionary of a node. -/
def Node.users : Node → List (Str × User)
  | .mk _ u => u

@[simp] theorem Node.children_mk (c : List (Str × Node)) (u : List (Str × User)) :
    (Node.mk c u).children = c := rfl

@[simp] theorem Node.users_mk (c : List (Str × Node)) (u : List (Str × User)) :
    (Node.mk c u).users = u := rfl

/-- `Node.size` (lines 204-211): the sum of the sizes of all users of the
node. -/
def Node.size (n : Node) : ℚ := (n.users.map (fun p => p.2.size)).sum

/-- The tree of `FilePathTree` (line 221): a dictionary from path
components to nodes. -/
abbrev Tree := List (Str × Node)

/-- Dictionary lookup on an association list (first matching key). -/
def lookupA {α : Type} (t : List (Str × α)) (k : Str) : Option α :=
  match t with
  | [] => none
  | (k', v) :: rest => if k' = k then some v else lookupA rest k

/-- Dictionary update of an existing key (first match), keeping its
position; other keys are unchanged. -/
def updateA {α : Type} (t : List (Str × α)) (k : Str) (f : α → α) : List (Str × α) :=
  match t with
  | [] => []
  | (k', v) :: rest => if k' = k then (k', f v) :: rest else (k', v) :: updateA rest k f

/-- The update of a node's users dictionary for one inserted record
(lines 234-240): add `size_bytes` to the owner's `file_size` and one to
its `count`, creating the entry if absent. -/
def bumpUsers (us : List (Str × User)) (u : Str) (s : ℚ) : List (Str × User) :=
  match lookupA us u with
  | some _ => updateA us u (fun st => ⟨st.name, st.file_size + s, st.count + 1⟩)
  | none => us ++ [(u, ⟨u, s, 1⟩)]

/-- The loop of `FilePathTree.insert` (lines 226-241) over the component
list: blank components are skipped; at each other component the node is
created (with a fresh singleton users dictionary) or its users dictionary
is updated, and the walk descends into the node's children. -/
def insertComps (s : ℚ) (u : Str) : List Str → Tree → Tree
  | [], t => t
  | item :: rest, t =>
    if isBlank item then insertComps s u rest t
    else
      match lookupA t item with
      | none =>
          t ++ [(item, Node.mk (insertComps s u rest []) [(u, ⟨u, s, 1⟩)])]
      | some n =>
          updateA t item (fun _ =>
            Node.mk (insertComps s u rest n.children) (bumpUsers n.users u s))

/-- `FilePathTree.insert` (lines 223-241). -/
def insert (t : Tree) (path_str : Str) (size_bytes : ℚ) (user_name : Str) : Tree :=
  insertComps size_bytes user_name (splitall path_str) t

/-- The node of a tree at a nonempty sequence `c :: cs` of components. -/
def findNode (t : Tree) (c : Str) (cs : List Str) : Option Node :=
  match cs with
  | [] => lookupA t c
  | c' :: cs' => (lookupA t c).bind (fun n => findNode n.children c' cs')

/-- One input record: a path, a size in bytes and an owner. -/
structure Record where
  path : Str
  size_bytes : ℚ
  owner : Str

/-- Insert a list of records into the empty tree, in order. -/
def build (recs : List Record) : Tree :=
  recs.foldl (fun t r => insert t r.path r.size_bytes r.owner) []

/-- The sequence of components an inserted path actually walks through:
its `splitall` components with blank ones removed. -/
def cleanPath (p : Str) : List Str := (splitall p).filter (fun c => !isBlank c)

/-- The size of an optional node, zero when absent. -/
def sizeO (o : Option Node) : ℚ := (o.map Node.size).getD 0

@[simp] theorem Node.size_mk (c : List (Str × Node)) (us : List (Str × User)) :
    (Node.mk c us).size = (us.map (fun p => p.2.size)).sum := rfl

@[simp] theorem lookupA_nil {α : Type} (k : Str) : lookupA ([] : List (Str × α)) k = none := rfl

@[simp] theorem findNode_nil (q : Str) (qs : List Str) : findNode [] q qs = none := by
  cases qs <;> rfl

theorem lookupA_append_of_none {α : Type} {t₁ : List (Str × α)} {k : Str}
    (t₂ : List (Str × α)) (h : lookupA t₁ k = none) :
    lookupA (t₁ ++ t₂) k = lookupA t₂ k := by
  induction t₁ with
  | nil => rfl
  | cons kv rest ih =>
    obtain ⟨k', v⟩ := kv
    by_cases hk : k' = k
    · rw [lookupA, if_pos hk] at h
      exact absurd h (by simp)
    · rw [lookupA, if_neg hk] at h
      rw [List.cons_append, lookupA, if_neg hk]
      exact ih h

theorem lookupA_append_of_some {α : Type} {t₁ : List (Str × α)} {k : Str} {v : α}
    (t₂ : List (Str × α)) (h : lookupA t₁ k = some v) :
    lookupA (t₁ ++ t₂) k = some v := by
  induction t₁ with
  | nil => simp at h
  | cons kv rest ih =>
    obtain ⟨k', w⟩ := kv
    by_cases hk : k' = k
    · rw [lookupA, if_pos hk] at h
      rw [List.cons_append, lookupA, if_pos hk]
      exact h
    · rw [lookupA, if_neg hk] at h
      rw [List.cons_append, lookupA, if_neg hk]
      exact ih h

theorem lookupA_append_singleton_ne {α : Type} {t : List (Str × α)} {k q : Str}
    (x : α) (h : q ≠ k) : lookupA (t ++ [(k, x)]) q = lookupA t q := by
  cases hl : lookupA t q with
  | some v => exact lookupA_append_of_some _ hl
  | none =>
    rw [lookupA_append_of_none _ hl, lookupA, if_neg (fun hk => h hk.symm)]
    rfl

theorem lookupA_updateA_self {α : Type} {t : List (Str × α)} {k : Str} {v : α}
    (f : α → α) (h : lookupA t k = some v) :
    lookupA (updateA t k f) k = some (f v) := by
  induction t with
  | nil => simp at h
  | cons kv rest ih =>
    obtain ⟨k', w⟩ := kv
    by_cases hk : k' = k
    · rw [lookupA, if_pos hk] at h
      rw [updateA, if_pos hk, lookupA, if_pos hk]
      rw [Option.some_inj] at h
      rw [h]
    · rw [lookupA, if_neg hk] at h
      rw [updateA, if_neg hk, lookupA, if_neg hk]
      exact ih h

theorem lookupA_updateA_ne {α : Type} {t : List (Str × α)} {k q : Str}
    (f : α → α) (h : q ≠ k) : lookupA (updateA t k f) q = lookupA t q := by
  induction t with
  | nil => rfl
  | cons kv rest ih =>
    obtain ⟨k', w⟩ := kv
    by_cases hk : k' = k
    · rw [updateA, if_pos hk, lookupA, lookupA]
      have hq : ¬ k' = q := fun hq => h (hq.symm.trans hk)
      rw [if_neg hq, if_neg hq]
    · rw [updateA, if_neg hk, lookupA, lookupA]
      by_cases hq : k' = q
      · rw [if_pos hq, if_pos hq]
      · rw [if_neg hq, if_neg hq]
        exact ih

/-- `findNode` only inspects the tree through `lookupA` at the first
component. -/
theorem findNode_congr {t t' : Tree} {q : Str} (qs : List Str)
    (h : lookupA t' q = lookupA t q) : findNode t' q qs = findNode t q qs := by
  cases qs with
  | nil => exact h
  | cons q' qs' => rw [findNode, findNode, h]

theorem sum_updateA {t : List (Str × User)} {k : Str} {v : User}
    (f : User → User) (h : lookupA t k = some v) :
    ((updateA t k f).map (fun p => p.2.size)).sum
      = (t.map (fun p => p.2.size)).sum - v.size + (f v).size := by
  induction t with
  | nil => simp at h
  | cons kv rest ih =>
    obtain ⟨k', w⟩ := kv
    by_cases hk : k' = k
    · rw [lookupA, if_pos hk] at h
      rw [Option.some_inj] at h
      rw [updateA, if_pos hk]
      subst h
      simp only [List.map_cons, List.sum_cons]
      ring
    · rw [lookupA, if_neg hk] at h
      rw [updateA, if_neg hk]
      simp only [List.map_cons, List.sum_cons, ih h]
      ring

/-- The users update of one insertion adds exactly the inserted size to
the total of the node's user sizes. -/
theorem bumpUsers_sum (us : List (Str × User)) (u : Str) (s : ℚ) :
    ((bumpUsers us u s).map (fun p => p.2.size)).sum
      = (us.map (fun p => p.2.size)).sum + s := by
  rw [bumpUsers]
  cases h : lookupA us u with
  | none => simp [User.size]
  | some v =>
    rw [sum_updateA _ h]
    simp only [User.size]
    ring

theorem updateA_length {α : Type} (t : List (Str × α)) (k : Str) (f : α → α) :
    (updateA t k f).length = t.length := by
  induction t with
  | nil => rfl
  | cons kv rest ih =>
    obtain ⟨k', w⟩ := kv
    by_cases hk : k' = k
    · rw [updateA, if_pos hk]
      simp
    · rw [updateA, if_neg hk]
      simp [ih]

/-- The users update never leaves an empty users dictionary. -/
theorem bumpUsers_ne_nil (us : List (Str × User)) (u : Str) (s : ℚ) :
    bumpUsers us u s ≠ [] := by
  cases h : lookupA us u with
  | none =>
    rw [bumpUsers, h]
    simp
  | some v =>
    rw [bumpUsers, h]
    show updateA us u (fun st => ⟨st.name, st.file_size + s, st.count + 1⟩) ≠ []
    intro hc
    have hlen := updateA_length us u (fun st => ⟨st.name, st.file_size + s, st.count + 1⟩)
    rw [hc] at hlen
    cases us with
    | nil => simp at h
    | cons kv rest => simp at hlen

/-- Inserting a component sequence that consists only of blank components
leaves the tree unchanged: the loop skips every component. -/
theorem insertComps_blank_all (s : ℚ) (u : Str) :
    ∀ (cs : List Str) (t : Tree), (∀ c ∈ cs, isBlank c = true) →
      insertComps s u cs t = t := by
  intro cs
  induction cs with
  | nil => intro t _; rfl
  | cons c cs ih =>
    intro t h
    have hc : isBlank c = true := h c (by simp)
    simp only [insertComps, hc, if_true]
    exact ih t (fun x hx => h x (by simp [hx]))

/-- Skipping blank components inline is the same as filtering them out
first. -/
theorem insertComps_filter (s : ℚ) (u : Str) :
    ∀ (cs : List Str) (t : Tree),
      insertComps s u cs t = insertComps s u (cs.filter (fun c => !isBlank c)) t := by
  intro cs
  induction cs with
  | nil => intro t; rfl
  | cons c cs ih =>
    intro t
    by_cases hc : isBlank c = true
    · have hf : (!isBlank c) = false := by rw [hc]; rfl
      rw [List.filter_cons, hf]
      simp only [insertComps, hc, if_true, Bool.false_eq_true, if_false]
      exact ih t
    · have hc' : isBlank c = false := by
        cases hb : isBlank c
        · rfl
        · exact absurd hb hc
      have hf : (!isBlank c) = true := by rw [hc']; rfl
      rw [List.filter_cons, hf]
      simp only [if_true]
      simp only [insertComps, hc', Bool.false_eq_true, if_false]
      cases hl : lookupA t c with
      | none => simp only [ih]
      | some n => simp only [ih]

/-- Unfolding of the insert loop at a blank component: the component is
skipped. -/
theorem insertComps_cons_blank {item : Str} (s : ℚ) (u : Str) (rest : List Str) (t : Tree)
    (h : isBlank item = true) :
    insertComps s u (item :: rest) t = insertComps s u rest t := by
  simp only [insertComps, h, if_true]

/-- Unfolding of the insert loop at a new component: a fresh node is
appended to the dictionary, with a singleton users entry for the owner. -/
theorem insertComps_cons_new {item : Str} {t : Tree} (s : ℚ) (u : Str) (rest : List Str)
    (hb : isBlank item = false) (hl : lookupA t item = none) :
    insertComps s u (item :: rest) t
      = t ++ [(item, Node.mk (insertComps s u rest []) [(u, ⟨u, s, 1⟩)])] := by
  simp only [insertComps, hb, Bool.false_eq_true, if_false]
  rw [hl]

/-- Unfolding of the insert loop at an existing component: the node keeps
its position, its users dictionary is updated and the walk descends into
its children. -/
theorem insertComps_cons_found {item : Str} {t : Tree} {n : Node} (s : ℚ) (u : Str)
    (rest : List Str) (hb : isBlank item = false) (hl : lookupA t item = some n) :
    insertComps s u (item :: rest) t
      = updateA t item (fun _ =>
          Node.mk (insertComps s u rest n.children) (bumpUsers n.users u s)) := by
  simp only [insertComps, hb, Bool.false_eq_true, if_false]
  rw [hl]

@[simp] theorem lookupA_singleton_self {α : Type} (k : Str) (x : α) :
    lookupA [(k, x)] k = some x := by
  rw [lookupA, if_pos rfl]

/-- Frame property of one insertion walk: positions that are not a prefix
of the inserted component sequence are untouched. -/
theorem findNode_insertComps_not_prefix (s : ℚ) (u : Str) :
    ∀ (cs : List Str) (t : Tree) (q : Str) (qs : List Str),
      (∀ c ∈ cs, isBlank c = false) → ¬ (q :: qs) <+: cs →
      findNode (insertComps s u cs t) q qs = findNode t q qs := by
  intro cs
  induction cs with
  | nil => intro t q qs _ _; rfl
  | cons item rest ih =>
    intro t q qs hcs hpre
    have hb : isBlank item = false := hcs item (by simp)
    have hrest : ∀ c ∈ rest, isBlank c = false := fun c hc => hcs c (by simp [hc])
    by_cases hq : q = item
    · subst hq
      cases qs with
      | nil => exact absurd (by simp [List.cons_prefix_cons]) hpre
      | cons q' qs' =>
        have hqs : ¬ (q' :: qs') <+: rest := by
          intro hcon
          exact hpre (by simp [List.cons_prefix_cons, hcon])
        cases hl : lookupA t q with
        | none =>
          rw [insertComps_cons_new s u rest hb hl]
          rw [findNode, findNode, lookupA_append_of_none _ hl, lookupA_singleton_self, hl]
          simp only [Option.some_bind, Option.none_bind, Node.children_mk]
          rw [ih [] q' qs' hrest hqs]
          simp
        | some n =>
          rw [insertComps_cons_found s u rest hb hl]
          have hup := lookupA_updateA_self
            (fun _ => Node.mk (insertComps s u rest n.children) (bumpUsers n.users u s)) hl
          rw [findNode, findNode, hup, hl]
          simp only [Option.some_bind, Node.children_mk]
          exact ih n.children q' qs' hrest hqs
    · cases hl : lookupA t item with
      | none =>
        rw [insertComps_cons_new s u rest hb hl]
        exact findNode_congr qs (lookupA_append_singleton_ne _ hq)
      | some n =>
        rw [insertComps_cons_found s u rest hb hl]
        exact findNode_congr qs (lookupA_updateA_ne _ hq)

/-- Effect of one insertion walk on a node that already exists at a
prefix of the inserted component sequence: its users dictionary is
updated by `bumpUsers`. -/
theorem findNode_insertComps_found (s : ℚ) (u : Str) :
    ∀ (cs : List Str) (t : Tree) (q : Str) (qs : List Str) (n : Node),
      (∀ c ∈ cs, isBlank c = false) → (q :: qs) <+: cs →
      findNode t q qs = some n →
      ∃ ch, findNode (insertComps s u cs t) q qs
        = some (Node.mk ch (bumpUsers n.users u s)) := by
  intro cs
  induction cs with
  | nil =>
    intro t q qs n _ hpre _
    simp at hpre
  | cons item rest ih =>
    intro t q qs n hcs hpre hfound
    have hb : isBlank item = false := hcs item (by simp)
    have hrest : ∀ c ∈ rest, isBlank c = false := fun c hc => hcs c (by simp [hc])
    rw [List.cons_prefix_cons] at hpre
    obtain ⟨hq, hqs⟩ := hpre
    subst hq
    cases qs with
    | nil =>
      have hl : lookupA t q = some n := hfound
      rw [insertComps_cons_found s u rest hb hl]
      exact ⟨insertComps s u rest n.children, lookupA_updateA_self _ hl⟩
    | cons q' qs' =>
      rw [findNode] at hfound
      cases hl : lookupA t q with
      | none =>
        rw [hl] at hfound
        simp at hfound
      | some n₀ =>
        rw [hl] at hfound
        simp only [Option.some_bind] at hfound
        rw [insertComps_cons_found s u rest hb hl]
        have hup := lookupA_updateA_self
          (fun _ => Node.mk (insertComps s u rest n₀.children) (bumpUsers n₀.users u s)) hl
        obtain ⟨ch, hch⟩ := ih n₀.children q' qs' n hrest hqs hfound
        refine ⟨ch, ?_⟩
        rw [findNode, hup]
        simp only [Option.some_bind, Node.children_mk]
        exact hch

/-- Effect of one insertion walk on a position that is a prefix of the
inserted component sequence but has no node yet: a node is created
lazily, with a singleton users entry for the inserting owner. -/
theorem findNode_insertComps_new (s : ℚ) (u : Str) :
    ∀ (cs : List Str) (t : Tree) (q : Str) (qs : List Str),
      (∀ c ∈ cs, isBlank c = false) → (q :: qs) <+: cs →
      findNode t q qs = none →
      ∃ ch, findNode (insertComps s u cs t) q qs
        = some (Node.mk ch [(u, ⟨u, s, 1⟩)]) := by
  intro cs
  induction cs with
  | nil =>
    intro t q qs _ hpre _
    simp at hpre
  | cons item rest ih =>
    intro t q qs hcs hpre hfound
    have hb : isBlank item = false := hcs item (by simp)
    have hrest : ∀ c ∈ rest, isBlank c = false := fun c hc => hcs c (by simp [hc])
    rw [List.cons_prefix_cons] at hpre
    obtain ⟨hq, hqs⟩ := hpre
    subst hq
    cases qs with
    | nil =>
      have hl : lookupA t q = none := hfound
      rw [insertComps_cons_new s u rest hb hl]
      refine ⟨insertComps s u rest [], ?_⟩
      show lookupA (t ++ [(q, _)]) q = _
      rw [lookupA_append_of_none _ hl, lookupA_singleton_self]
    | cons q' qs' =>
      rw [findNode] at hfound
      cases hl : lookupA t q with
      | none =>
        rw [insertComps_cons_new s u rest hb hl]
        obtain ⟨ch, hch⟩ := ih [] q' qs' hrest hqs (findNode_nil q' qs')
        refine ⟨ch, ?_⟩
        rw [findNode, lookupA_append_of_none _ hl, lookupA_singleton_self]
        simp only [Option.some_bind, Node.children_mk]
        exact hch
      | some n₀ =>
        rw [hl] at hfound
        simp only [Option.some_bind] at hfound
        rw [insertComps_cons_found s u rest hb hl]
        have hup := lookupA_updateA_self
          (fun _ => Node.mk (insertComps s u rest n₀.children) (bumpUsers n₀.users u s)) hl
        obtain ⟨ch, hch⟩ := ih n₀.children q' qs' hrest hqs hfound
        refine ⟨ch, ?_⟩
        rw [findNode, hup]
        simp only [Option.some_bind, Node.children_mk]
        exact hch

/-- Effect of one insertion walk on the size of the node at any
position: the size grows by the inserted size exactly at the prefixes of
the inserted component sequence. -/
theorem sizeO_insertComps (s : ℚ) (u : Str) (cs : List Str) (t : Tree) (q : Str)
    (qs : List Str) (hcs : ∀ c ∈ cs, isBlank c = false) :
    sizeO (findNode (insertComps s u cs t) q qs)
      = sizeO (findNode t q qs) + (if (q :: qs) <+: cs then s else 0) := by
  by_cases hpre : (q :: qs) <+: cs
  · rw [if_pos hpre]
    cases hfound : findNode t q qs with
    | some n =>
      obtain ⟨ch, heq⟩ := findNode_insertComps_found s u cs t q qs n hcs hpre hfound
      rw [heq]
      simp [sizeO, bumpUsers_sum, Node.size]
    | none =>
      obtain ⟨ch, heq⟩ := findNode_insertComps_new s u cs t q qs hcs hpre hfound
      rw [heq]
      simp [sizeO, Node.size, User.size]
  · rw [if_neg hpre, findNode_insertComps_not_prefix s u cs t q qs hcs hpre]
    simp

/-- Effect of `insert` on the size of the node at any position, in terms
of the cleaned component sequence of the inserted path. -/
theorem sizeO_insert (t : Tree) (p : Str) (s : ℚ) (u : Str) (q : Str) (qs : List Str) :
    sizeO (findNode (insert t p s u) q qs)
      = sizeO (findNode t q qs) + (if (q :: qs) <+: cleanPath p then s else 0) := by
  rw [insert, insertComps_filter]
  exact sizeO_insertComps s u (cleanPath p) t q qs
    (fun c hc => by
      have := List.of_mem_filter hc
      simpa using this)

/-- The size of the node at any position of the built tree is the sum of
the sizes of the records whose cleaned path passes through the position. -/
theorem build_sizeO (recs : List Record) (q : Str) (qs : List Str) :
    sizeO (findNode (build recs) q qs)
      = ((recs.filter (fun r => decide ((q :: qs) <+: cleanPath r.path))).map
          (fun r => r.size_bytes)).sum := by
  induction recs using List.reverseRecOn with
  | nil => simp [build, sizeO]
  | append_singleton recs r ih =>
    have hb : build (recs ++ [r]) = insert (build recs) r.path r.size_bytes r.owner := by
      rw [build, build, List.foldl_append]
      rfl
    rw [hb, sizeO_insert, ih, List.filter_append, List.map_append, List.sum_append]
    by_cases hpre : (q :: qs) <+: cleanPath r.path
    · simp [hpre]
    · simp [hpre]

/-- C1: after inserting any sequence of records into an initially empty
tree, the size of every node (the sum of `file_size` over its owner
entries) equals the sum of `size_bytes` over exactly those records whose
cleaned component sequence has the node's position as a prefix. -/
theorem monotonic_aggregation (recs : List Record) (q : Str) (qs : List Str) (n : Node)
    (h : findNode (build recs) q qs = some n) :
    n.size = ((recs.filter (fun r => decide ((q :: qs) <+: cleanPath r.path))).map
      (fun r => r.size_bytes)).sum := by
  have hs := build_sizeO recs q qs
  rw [h] at hs
  simpa [sizeO] using hs

/-- Witness for C1: a concrete two-record input whose node at position
`/ a` aggregates both record sizes. -/
theorem monotonic_aggregation_witness :
    findNode (build [⟨strL "/a/b", 3, strL "u"⟩, ⟨strL "/a", 2, strL "v"⟩])
        (strL "/") [strL "a"]
      = some (Node.mk [(strL "b", Node.mk [] [(strL "u", ⟨strL "u", 3, 1⟩)])]
          [(strL "u", ⟨strL "u", 3, 1⟩), (strL "v", ⟨strL "v", 2, 1⟩)]) ∧
    (Node.mk [(strL "b", Node.mk [] [(strL "u", ⟨strL "u", 3, 1⟩)])]
        [(strL "u", ⟨strL "u", 3, 1⟩), (strL "v", ⟨strL "v", 2, 1⟩)] : Node).size
      = (([⟨strL "/a/b", 3, strL "u"⟩, ⟨strL "/a", 2, strL "v"⟩].filter
          (fun r : Record => decide ((strL "/" :: [strL "a"]) <+: cleanPath r.path))).map
            (fun r => r.size_bytes)).sum :=
  ⟨rfl, monotonic_aggregation [⟨strL "/a/b", 3, strL "u"⟩, ⟨strL "/a", 2, strL "v"⟩]
    (strL "/") [strL "a"] _ rfl⟩

@[simp] theorem findNode_cons_nil (t : Tree) (q : Str) :
    findNode t q [] = lookupA t q := rfl

@[simp] theorem findNode_cons_cons (t : Tree) (q q' : Str) (qs' : List Str) :
    findNode t q (q' :: qs') = (lookupA t q).bind (fun n => findNode n.children q' qs') := rfl

/-- C3: the governing examples of the path splitting operation, exactly
as stated: a leading root marker is preserved as its own component, an
empty input yields a single empty component, and a relative path has no
root marker. -/
theorem splitall_governing_examples :
    splitall (strL "/a/b/c") = [strL "/", strL "a", strL "b", strL "c"] ∧
    splitall (strL "") = [strL ""] ∧
    splitall (strL "/") = [strL "/"] ∧
    splitall (strL "relative/path") = [strL "relative", strL "path"] :=
  ⟨rfl, rfl, rfl, rfl⟩

/-- C2: `insert` splits the path, skips blank components (first
conjunct: inserting the split component sequence is inserting the cleaned
one), and at every node position along the walk — every nonempty prefix
of the cleaned sequence, not only the terminal one — the owner's entry is
incremented by one file and `size_bytes` bytes when the node exists
(second conjunct), and the node and its owner entry are created lazily
when absent (third conjunct).  `insert` is a total Lean function, so it
never fails for any input string. -/
theorem insert_visits_all_prefixes :
    (∀ (t : Tree) (p : Str) (s : ℚ) (u : Str),
        insert t p s u = insertComps s u (cleanPath p) t) ∧
    (∀ (s : ℚ) (u : Str) (cs : List Str) (t : Tree) (q : Str) (qs : List Str) (n : Node),
        (∀ c ∈ cs, isBlank c = false) → (q :: qs) <+: cs →
        findNode t q qs = some n →
        ∃ ch, findNode (insertComps s u cs t) q qs
          = some (Node.mk ch (bumpUsers n.users u s))) ∧
    (∀ (s : ℚ) (u : Str) (cs : List Str) (t : Tree) (q : Str) (qs : List Str),
        (∀ c ∈ cs, isBlank c = false) → (q :: qs) <+: cs →
        findNode t q qs = none →
        ∃ ch, findNode (insertComps s u cs t) q qs
          = some (Node.mk ch [(u, ⟨u, s, 1⟩)])) :=
  ⟨fun t p s u => by rw [insert]; exact insertComps_filter s u (splitall p) t,
   findNode_insertComps_found, findNode_insertComps_new⟩

/-- Witness for C2: applying each conjunct at a concrete input. -/
theorem insert_visits_all_prefixes_witness :
    insert ([] : Tree) (strL "/a") 2 (strL "u")
        = insertComps 2 (strL "u") (cleanPath (strL "/a")) [] ∧
    (∃ ch, findNode (insertComps 7 (strL "w") [strL "x"]
          [(strL "x", Node.mk [] [(strL "u", ⟨strL "u", 1, 1⟩)])]) (strL "x") []
        = some (Node.mk ch
            (bumpUsers (Node.mk [] [(strL "u", ⟨strL "u", 1, 1⟩)] : Node).users
              (strL "w") 7))) ∧
    (∃ ch, findNode (insertComps 7 (strL "w") [strL "y"] []) (strL "y") []
        = some (Node.mk ch [(strL "w", ⟨strL "w", 7, 1⟩)])) :=
  ⟨insert_visits_all_prefixes.1 [] (strL "/a") 2 (strL "u"),
   insert_visits_all_prefixes.2.1 7 (strL "w") [strL "x"]
     [(strL "x", Node.mk [] [(strL "u", ⟨strL "u", 1, 1⟩)])] (strL "x") []
     (Node.mk [] [(strL "u", ⟨strL "u", 1, 1⟩)]) (by decide) (by decide) rfl,
   insert_visits_all_prefixes.2.2 7 (strL "w") [strL "y"] [] (strL "y") []
     (by decide) (by decide) rfl⟩

/-- C10: inserting a path every component of which is blank (for example
the empty string) leaves the tree completely unchanged. -/
theorem insert_all_blank_frame (t : Tree) (p : Str) (s : ℚ) (u : Str)
    (h : ∀ c ∈ splitall p, isBlank c = true) : insert t p s u = t := by
  rw [insert]
  exact insertComps_blank_all s u (splitall p) t h

/-- Witness for C10: inserting the empty path into a one-node tree. -/
theorem insert_all_blank_frame_witness :
    (∀ c ∈ splitall (strL ""), isBlank c = true) ∧
    insert [(strL "a", Node.mk [] [(strL "u", ⟨strL "u", 1, 1⟩)])] (strL "") 5 (strL "w")
      = [(strL "a", Node.mk [] [(strL "u", ⟨strL "u", 1, 1⟩)])] :=
  ⟨by decide, insert_all_blank_frame _ _ _ _ (by decide)⟩

/-- Every node reachable in the tree has a nonempty users dictionary. -/
def usersNonempty (t : Tree) : Prop :=
  ∀ q qs n, findNode t q qs = some n → n.users ≠ []

theorem usersNonempty_nil : usersNonempty ([] : Tree) := by
  intro q qs n hf
  rw [findNode_nil] at hf
  cases hf

/-- One insertion walk preserves nonemptiness of all users dictionaries:
created nodes get a singleton entry and updated nodes get a bumped,
never emptied, dictionary. -/
theorem usersNonempty_insertComps (s : ℚ) (u : Str) :
    ∀ (cs : List Str) (t : Tree), usersNonempty t → usersNonempty (insertComps s u cs t) := by
  intro cs
  induction cs with
  | nil => intro t h; exact h
  | cons item rest ih =>
    intro t h
    by_cases hb : isBlank item = true
    · rw [insertComps_cons_blank s u rest t hb]
      exact ih t h
    · have hb' : isBlank item = false := by
        cases hbb : isBlank item
        · rfl
        · exact absurd hbb hb
      cases hl : lookupA t item with
      | none =>
        rw [insertComps_cons_new s u rest hb' hl]
        intro q qs n hfind
        by_cases hq : q = item
        · subst hq
          cases qs with
          | nil =>
            rw [findNode_cons_nil, lookupA_append_of_none _ hl, lookupA_singleton_self] at hfind
            rw [Option.some_inj] at hfind
            rw [← hfind]
            simp
          | cons q' qs' =>
            rw [findNode_cons_cons, lookupA_append_of_none _ hl, lookupA_singleton_self] at hfind
            simp only [Option.some_bind, Node.children_mk] at hfind
            exact ih [] usersNonempty_nil q' qs' n hfind
        · rw [findNode_congr qs (lookupA_append_singleton_ne _ hq)] at hfind
          exact h q qs n hfind
      | some n₀ =>
        rw [insertComps_cons_found s u rest hb' hl]
        intro q qs n hfind
        by_cases hq : q = item
        · subst hq
          have hup := lookupA_updateA_self
            (fun _ => Node.mk (insertComps s u rest n₀.children) (bumpUsers n₀.users u s)) hl
          cases qs with
          | nil =>
            rw [findNode_cons_nil, hup] at hfind
            rw [Option.some_inj] at hfind
            rw [← hfind]
            simp only [Node.users_mk]
            exact bumpUsers_ne_nil n₀.users u s
          | cons q' qs' =>
            rw [findNode_cons_cons, hup] at hfind
            simp only [Option.some_bind, Node.children_mk] at hfind
            have hsub : usersNonempty n₀.children := by
              intro q2 qs2 n2 hf2
              refine h q (q2 :: qs2) n2 ?_
              rw [findNode_cons_cons, hl]
              simpa using hf2
            exact ih n₀.children hsub q' qs' n hfind
        · rw [findNode_congr qs (lookupA_updateA_ne _ hq)] at hfind
          exact h q qs n hfind

theorem usersNonempty_build (recs : List Record) : usersNonempty (build recs) := by
  induction recs using List.reverseRecOn with
  | nil => exact usersNonempty_nil
  | append_singleton recs r ih =>
    have hb : build (recs ++ [r]) = insert (build recs) r.path r.size_bytes r.owner := by
      rw [build, build, List.foldl_append]
      rfl
    rw [hb, insert]
    exact usersNonempty_insertComps r.size_bytes r.owner (splitall r.path) (build recs) ih

/-- C9: every node present in a built tree has a nonempty owners
dictionary — `insert` installs an owner entry the moment a node is
created — so its size is a sum over at least one owner entry, and this is
preserved by every insert call. -/
theorem node_users_nonempty (recs : List Record) (q : Str) (qs : List Str) (n : Node)
    (h : findNode (build recs) q qs = some n) : n.users ≠ [] :=
  usersNonempty_build recs q qs n h

/-- Witness for C9: the root node of a one-record tree. -/
theorem node_users_nonempty_witness :
    findNode (build [⟨strL "/a", 2, strL "u"⟩]) (strL "/") []
      = some (Node.mk [(strL "a", Node.mk [] [(strL "u", ⟨strL "u", 2, 1⟩)])]
          [(strL "u", ⟨strL "u", 2, 1⟩)]) ∧
    (Node.mk [(strL "a", Node.mk [] [(strL "u", ⟨strL "u", 2, 1⟩)])]
        [(strL "u", ⟨strL "u", 2, 1⟩)] : Node).users ≠ [] :=
  ⟨rfl, node_users_nonempty [⟨strL "/a", 2, strL "u"⟩] (strL "/") [] _ rfl⟩

/-! ### The renderer (`FilePathTreeRender`, file_usage.py lines 244-322) -/

instance exceptDecEq {ε α : Type} [DecidableEq ε] [DecidableEq α] :
    DecidableEq (Except ε α) := fun a b =>
  match a, b with
  | .error e, .error e' =>
    if h : e = e' then isTrue (by rw [h])
    else isFalse (fun hc => h (by cases hc; rfl))
  | .error e, .ok v => isFalse (fun hc => by cases hc)
  | .ok v, .error e => isFalse (fun hc => by cases hc)
  | .ok v, .ok v' =>
    if h : v = v' then isTrue (by rw [h])
    else isFalse (fun hc => h (by cases hc; rfl))

/-- Runtime errors of the renderer: the `ZeroDivisionError` raised by
`is_big_enough` when `total_size` is zero, and exhaustion of the explicit
fuel bounding the model's recursion (Python's recursion is bounded by the
finite tree, so sufficient fuel makes this error unreachable; all general
theorems below are stated about non-error results). -/
inductive RErr where
  | divZero
  | fuel
deriving DecidableEq

/-- The options stored by `FilePathTreeRender.__init__` (lines 247-257).
`indent` and `precision` only affect textual formatting, which is not
modelled (output lines carry the depth and the exact size instead). -/
structure RenderOpts where
  total_size : ℚ
  percent_threshold : ℚ
  show_users : Bool
  indent : ℕ
  precision : ℕ
deriving DecidableEq

/-- One printed line of the report: either a path header
(`"{indent}{path} ({size} GB)"`, line 289) or a user line
(`"{indent}  - {name}: size = .., count = .."`, line 298), carrying the
depth, the displayed path or name, and the exact numbers instead of their
formatted text. -/
inductive OutLine where
  | header (depth : ℕ) (path : Str) (size : ℚ)
  | userline (depth : ℕ) (name : Str) (size : ℚ) (count : ℕ)
deriving DecidableEq

/-- `is_big_enough` (lines 303-310): the percentage of the total that
this size represents is at least the threshold.  Dividing by a zero
total raises `ZeroDivisionError`, modelled as `RErr.divZero`. -/
def is_big_enough (o : RenderOpts) (size : ℚ) : Except RErr Bool :=
  if o.total_size = 0 then .error .divZero
  else .ok (decide (size / o.total_size * 100 ≥ o.percent_threshold))

/-- The boolean value of `is_big_enough` when the total is nonzero. -/
def bigB (o : RenderOpts) (size : ℚ) : Bool :=
  decide (size / o.total_size * 100 ≥ o.percent_threshold)

theorem is_big_enough_eq {o : RenderOpts} (h : o.total_size ≠ 0) (size : ℚ) :
    is_big_enough o size = .ok (bigB o size) := by
  rw [is_big_enough, if_neg h]
  rfl

/-- `iter_by_size` (lines 313-322): the triples `(key, value, size)` of a
dictionary, sorted descending by size.  Python's `sorted(..,
reverse=True)` is a stable descending sort, modelled by a stable merge
sort whose order places `a` before `b` when `size b ≤ size a`.  The
input association list's order stands for `dict.items()` enumeration
order, which in CPython 2 is hash-slot order, not insertion order; the
sortedness and stability theorems below therefore quantify over every
input order, and concrete evaluations use keys whose hash-slot order
equals the model's list order. -/
def iter_by_size {α : Type} (sz : α → ℚ) (d : List (Str × α)) : List (Str × α × ℚ) :=
  (d.map (fun kv => (kv.1, kv.2, sz kv.2))).mergeSort (fun a b => decide (b.2.2 ≤ a.2.2))

/-- The chain-collapsing `while` loop of `render_rec` (lines 277-284),
with fuel: while the node has exactly one child, the child's name is
appended to the displayed path (without an extra separator when the
accumulated path is exactly the root marker) and the walk descends into
the child. -/
def collapseF : ℕ → Str → Node → Except RErr (Str × Node)
  | 0, path, node =>
    match node.children with
    | [_] => .error .fuel
    | _ => .ok (path, node)
  | f + 1, path, node =>
    match node.children with
    | [(child_path, child)] =>
        collapseF f (if path = strL "/" then path ++ child_path
                     else path ++ '/' :: child_path) child
    | _ => .ok (path, node)

/-- The user-printing loop of `render_rec` (lines 295-298) over the
sorted user triples: each user whose size from the sorted triple passes
`is_big_enough` is printed. -/
def user_lines_go (o : RenderOpts) (depth : ℕ) :
    List (Str × User × ℚ) → Except RErr (List OutLine)
  | [] => .ok []
  | (_, user_stats, user_size) :: rest =>
    match is_big_enough o user_size with
    | .error e => .error e
    | .ok b =>
      match user_lines_go o depth rest with
      | .error e => .error e
      | .ok more =>
        .ok ((if b then
                [OutLine.userline depth user_stats.name user_stats.file_size user_stats.count]
              else []) ++ more)

/-- The user listing of one node (lines 292-298). -/
def user_lines (o : RenderOpts) (users : List (Str × User)) (depth : ℕ) :
    Except RErr (List OutLine) :=
  user_lines_go o depth (iter_by_size User.size users)

/-- The body of the child loop of `render_rec` (lines 268-301) for one
child: recompute the node size (line 269), test `is_big_enough`, and if
it passes collapse single-child chains, print the header line, print the
users if requested, and recurse into the collapsed node's children at
the next depth.  `recur` and `collapse` are the recursive calls,
instantiated by `render_tree` with the remaining fuel. -/
def render_child (o : RenderOpts)
    (recur : Tree → ℕ → Except RErr (List OutLine))
    (collapse : Str → Node → Except RErr (Str × Node))
    (path : Str) (node : Node) (current_depth : ℕ) : Except RErr (List OutLine) :=
  match is_big_enough o node.size with
  | .error e => .error e
  | .ok false => .ok []
  | .ok true =>
    match collapse path node with
    | .error e => .error e
    | .ok pn =>
      match (if o.show_users then user_lines o pn.2.users current_depth else .ok []) with
      | .error e => .error e
      | .ok uls =>
        match recur pn.2.children (current_depth + 1) with
        | .error e => .error e
        | .ok sub => .ok (OutLine.header current_depth pn.1 node.size :: (uls ++ sub))

/-- The child loop of `render_rec` over the sorted children, in order,
concatenating the lines printed for each child. -/
def render_children (o : RenderOpts)
    (recur : Tree → ℕ → Except RErr (List OutLine))
    (collapse : Str → Node → Except RErr (Str × Node)) :
    List (Str × Node × ℚ) → ℕ → Except RErr (List OutLine)
  | [], _ => .ok []
  | (path, node, _) :: rest, current_depth =>
    match render_child o recur collapse path node current_depth with
    | .error e => .error e
    | .ok block =>
      match render_children o recur collapse rest current_depth with
      | .error e => .error e
      | .ok more => .ok (block ++ more)

/-- `render_rec` (lines 262-301), with fuel: an empty dictionary prints
nothing; otherwise the children are visited in `iter_by_size` order. -/
def render_tree (o : RenderOpts) : ℕ → Tree → ℕ → Except RErr (List OutLine)
  | 0, _, _ => .error .fuel
  | f + 1, tree, current_depth =>
    if tree.isEmpty then .ok []
    else render_children o (render_tree o f) (collapseF f)
      (iter_by_size Node.size tree) current_depth

/-! ### Unit parsing and the ingestion pipeline (lines 61-147, 325-398) -/

/-- `UNITS_IN_BYTES` (lines 61-67): note that only the upper-case unit
letters are keys. -/
def UNITS_IN_BYTES : List (Str × ℚ) :=
  [(strL "B", 1), (strL "K", 1024), (strL "M", 1024 ^ 2),
   (strL "G", 1024 ^ 3), (strL "T", 1024 ^ 4)]

/-- Fatal errors of `size_in_bytes`: the `exit("Bad file size in input:
'{tok}'")` call (line 147), carrying the offending token, and the
uncaught `KeyError` raised by `UNITS_IN_BYTES[units]` (line 144) when
`units` is not a key, carrying the missing key. -/
inductive SizeErr where
  | badSize (tok : Str)
  | keyError (key : Str)
deriving DecidableEq

/-- Python `str.strip()`: remove leading and trailing whitespace. -/
def stripWs (l : Str) : Str :=
  ((l.dropWhile pySpace).reverse.dropWhile pySpace).reverse

/-- The natural number denoted by a string of decimal digits. -/
def natOfDigits (l : Str) : ℕ :=
  l.foldl (fun a c => 10 * a + (c.toNat - '0'.toNat)) 0

/-- An optional leading sign of a numeric literal. -/
def splitSign (t : Str) : ℚ × Str :=
  match t with
  | '+' :: r => (1, r)
  | '-' :: r => (-1, r)
  | _ => (1, t)

/-- The exponent part of a float literal, applied to the mantissa. -/
def expPart (mantissa : ℚ) (r3 : Str) : Option ℚ :=
  let pair : Bool × Str :=
    match r3 with
    | '+' :: r => (false, r)
    | '-' :: r => (true, r)
    | _ => (false, r3)
  let ed := pair.2.takeWhile Char.isDigit
  let rest := pair.2.dropWhile Char.isDigit
  if ed ≠ [] ∧ rest = [] then
    some (if pair.1 then mantissa / (10 : ℚ) ^ natOfDigits ed
          else mantissa * (10 : ℚ) ^ natOfDigits ed)
  else none

/-- Model of Python 2 `float()` on finite decimal literals: optional
surrounding whitespace, an optional sign, digits with an optional
fractional part, and an optional decimal exponent, evaluated exactly over
`ℚ` (IEEE rounding and the special values `inf`/`nan` are not modelled). -/
def pyFloat (s : Str) : Option ℚ :=
  let t1 := (splitSign (stripWs s)).2
  let sgn := (splitSign (stripWs s)).1
  let ip := t1.takeWhile Char.isDigit
  let r1 := t1.dropWhile Char.isDigit
  let triple : ℚ × Bool × Str :=
    match r1 with
    | '.' :: r =>
      ((natOfDigits ip : ℚ) + (natOfDigits (r.takeWhile Char.isDigit) : ℚ)
          / (10 : ℚ) ^ (r.takeWhile Char.isDigit).length,
        !ip.isEmpty || !(r.takeWhile Char.isDigit).isEmpty,
        r.dropWhile Char.isDigit)
    | _ => ((natOfDigits ip : ℚ), !ip.isEmpty, r1)
  if triple.2.1 then
    match triple.2.2 with
    | [] => some (sgn * triple.1)
    | 'e' :: r3 => (expPart triple.1 r3).map (fun m => sgn * m)
    | 'E' :: r3 => (expPart triple.1 r3).map (fun m => sgn * m)
    | _ => none
  else none

/-- `size_in_bytes` (lines 99-147).  The last character is kept with its
original case as the units key when its upper-case form is `K`, `M`, `G`
or `T` (`B` is not in that list: a trailing `B` is treated as part of the
number); a failed float parse falls through to the `exit` call; a
lower-case units key is missing from `UNITS_IN_BYTES` and raises
`KeyError`. -/
def size_in_bytes (size_str : Str) : Except SizeErr ℚ :=
  match size_str.getLast? with
  | none => .error (.badSize size_str)
  | some c =>
    let isUnit : Bool := c.toUpper = 'K' || c.toUpper = 'M' || c.toUpper = 'G' || c.toUpper = 'T'
    let units : Str := if isUnit then [c] else strL "B"
    let number : Str := if isUnit then size_str.dropLast else size_str
    match pyFloat number with
    | none => .error (.badSize size_str)
    | some scalar =>
      match lookupA UNITS_IN_BYTES units with
      | some m => .ok (scalar * m)
      | none => .error (.keyError units)

unseal Rat.mul Rat.inv Rat.add Rat.sub in
/-- Doctests of `size_in_bytes` (lines 118-129). -/
theorem size_in_bytes_doctests :
    size_in_bytes (strL "45") = .ok 45 ∧
    size_in_bytes (strL "12M") = .ok 12582912 ∧
    size_in_bytes (strL "100G") = .ok 107374182400 ∧
    size_in_bytes (strL "1T") = .ok 1099511627776 := by
  refine ⟨?_, ?_, ?_, ?_⟩ <;> decide

/-- The command line arguments consumed by the pipeline
(`parse_args`, lines 18-58). -/
structure Args where
  thresh : ℚ
  indent : ℕ
  precision : ℕ
  path : Option Str
  user : Option Str
  showusers : Bool

/-- The default arguments (lines 9-12). -/
def default_args : Args := ⟨1, 8, 1, none, none, false⟩

/-- Python truthiness of an optional string argument: `None` and the
empty string are falsy. -/
def optTruthy (o : Option Str) : Bool :=
  match o with
  | none => false
  | some s => !s.isEmpty

/-- Bool-valued prefix test on character lists (`str.startswith`). -/
def startsWith (pre s : Str) : Bool := decide (pre <+: s)

/-- `consider_file` (lines 325-340). -/
def consider_file (args : Args) (user_name path : Str) : Bool :=
  !((optTruthy args.path && !(startsWith (args.path.getD []) path))
    || (optTruthy args.user && !(user_name = args.user.getD [])))

/-- Python `str.split()` with no argument: split on runs of whitespace,
producing no empty fields, with fuel (each round consumes at least one
character, so `length + 1` rounds suffice). -/
def splitWsF : ℕ → Str → List Str
  | 0, _ => []
  | f + 1, l =>
    match l.dropWhile pySpace with
    | [] => []
    | l1 => l1.takeWhile (fun c => !pySpace c) :: splitWsF f (l1.dropWhile (fun c => !pySpace c))

/-- Python `line.split()`. -/
def splitWs (l : Str) : List Str := splitWsF (l.length + 1) l

/-- The mutable state of `process_input` (lines 343-371): the per-user
summary dictionary, the path tree, and the skipped-line counter. -/
structure PState where
  user_usage : List (Str × User)
  tree : Tree
  num_skipped : ℕ

/-- The body of the ingestion loop (lines 351-366) for one line: lines
with fewer than three whitespace-separated fields are counted as skipped;
otherwise, if the filters accept the record, the size token is parsed
(fatally on error), the user summary is updated (the inline code of
lines 359-363 performs exactly `bumpUsers`), and the record is inserted
into the tree. -/
def process_line (args : Args) (st : PState) (line : Str) : Except SizeErr PState :=
  match splitWs line with
  | size :: user_name :: path :: _ =>
    if consider_file args user_name path then
      match size_in_bytes size with
      | .error e => .error e
      | .ok this_bytes =>
        .ok ⟨bumpUsers st.user_usage user_name this_bytes,
             insert st.tree path this_bytes user_name,
             st.num_skipped⟩
    else .ok st
  | _ => .ok ⟨st.user_usage, st.tree, st.num_skipped + 1⟩

/-- The ingestion loop over all input lines. -/
def process_input_go (args : Args) : PState → List Str → Except SizeErr PState
  | st, [] => .ok st
  | st, line :: rest =>
    match process_line args st line with
    | .error e => .error e
    | .ok st' => process_input_go args st' rest

/-- `process_input` (lines 343-371) over a list of input lines. -/
def process_input (args : Args) (lines : List Str) : Except SizeErr PState :=
  process_input_go args ⟨[], [], 0⟩ lines

/-- `total_size_usage` of `main` (line 386). -/
def total_size_usage (st : PState) : ℚ :=
  (st.user_usage.map (fun p => p.2.size)).sum

/-- `total_count` of `main` (line 387). -/
def total_count (st : PState) : ℕ :=
  (st.user_usage.map (fun p => p.2.count)).sum

/-- The observable outcome of `main` after ingestion: either the
renderer was invoked (with its result), or the `"Total usage is 0 GB,
nothing to show."` message was printed instead. -/
inductive MainResult where
  | rendered (out : Except RErr (List OutLine))
  | nothingToShow
deriving DecidableEq

/-- The dispatch of `main` (lines 383-398): the renderer is invoked,
with `total_size_usage` as the denominator, exactly when `total_count`
is positive. -/
def main_run (args : Args) (lines : List Str) (fuel : ℕ) : Except SizeErr MainResult :=
  match process_input args lines with
  | .error e => .error e
  | .ok st =>
    if total_count st > 0 then
      .ok (.rendered (render_tree
        ⟨total_size_usage st, args.thresh, args.showusers, args.indent, args.precision⟩
        fuel st.tree 0))
    else .ok .nothingToShow

/-! ### Properties of the rendered output -/

/-- The depth (indentation level) a line is printed at. -/
def lineDepth : OutLine → ℕ
  | .header d _ _ => d
  | .userline d _ _ _ => d

/-- The size a line displays. -/
def lineSize : OutLine → ℚ
  | .header _ _ s => s
  | .userline _ _ s _ => s

/-- Whether a line is a path header printed at depth `d`. -/
def isHeaderAt (d : ℕ) : OutLine → Bool
  | .header d' _ _ => d' = d
  | .userline _ _ _ _ => false

theorem isHeaderAt_false_of_depth_ne {d : ℕ} {x : OutLine} (h : lineDepth x ≠ d) :
    isHeaderAt d x = false := by
  cases x with
  | header d' p s =>
    simp only [lineDepth] at h
    simp [isHeaderAt, h]
  | userline d' nm s c => rfl

/-- The size components of the sorted triples are sorted descending. -/
theorem iter_by_size_sizes_sorted {α : Type} (sz : α → ℚ) (d : List (Str × α)) :
    ((iter_by_size sz d).map (fun x => x.2.2)).Pairwise (fun a b : ℚ => b ≤ a) := by
  rw [iter_by_size, List.pairwise_map]
  have h : (List.mergeSort (d.map fun kv => (kv.1, kv.2, sz kv.2))
      (fun a b => decide (b.2.2 ≤ a.2.2))).Pairwise (fun a b => decide (b.2.2 ≤ a.2.2)) := by
    apply List.sorted_mergeSort
    · intro a b c h1 h2
      simp only [decide_eq_true_eq] at h1 h2 ⊢
      exact le_trans h2 h1
    · intro a b
      simp only [Bool.or_eq_true, decide_eq_true_eq]
      exact le_total b.2.2 a.2.2
  exact h.imp (fun hab => by simpa using hab)

/-- Stability of the sort: a pair of entries whose sizes are already
non-ascending — in particular a tie — keeps its relative enumeration
order in the sorted output.  No name-based re-ordering happens. -/
theorem iter_by_size_stable {α : Type} (sz : α → ℚ) (d : List (Str × α))
    (x y : Str × α × ℚ) (hxy : y.2.2 ≤ x.2.2)
    (h : List.Sublist [x, y] (d.map (fun kv => (kv.1, kv.2, sz kv.2)))) :
    List.Sublist [x, y] (iter_by_size sz d) := by
  rw [iter_by_size]
  apply List.pair_sublist_mergeSort
  · intro a b c h1 h2
    simp only [decide_eq_true_eq] at h1 h2 ⊢
    exact le_trans h2 h1
  · intro a b
    simp only [Bool.or_eq_true, decide_eq_true_eq]
    exact le_total b.2.2 a.2.2
  · simp only [decide_eq_true_eq]
    exact hxy
  · exact h

/-- Every sorted triple really is `(key, value, size value)`. -/
theorem iter_by_size_mem {α : Type} (sz : α → ℚ) (d : List (Str × α)) :
    ∀ x ∈ iter_by_size sz d, x.2.2 = sz x.2.1 ∧ (x.1, x.2.1) ∈ d := by
  intro x hx
  rw [iter_by_size] at hx
  have hperm := List.mergeSort_perm (d.map fun kv => (kv.1, kv.2, sz kv.2))
    (fun a b => decide (b.2.2 ≤ a.2.2))
  have hx' := hperm.mem_iff.mp hx
  obtain ⟨kv, hkv, hmap⟩ := List.mem_map.mp hx'
  rw [← hmap]
  exact ⟨rfl, hkv⟩

/-- The user loop prints every line at the depth it was given. -/
theorem user_lines_go_depth (o : RenderOpts) (d : ℕ) :
    ∀ (l : List (Str × User × ℚ)) (uls : List OutLine),
      user_lines_go o d l = .ok uls → ∀ x ∈ uls, lineDepth x = d := by
  intro l
  induction l with
  | nil =>
    intro uls h x hx
    rw [user_lines_go] at h
    simp only [Except.ok.injEq] at h
    rw [← h] at hx
    simp at hx
  | cons y rest ih =>
    intro uls h x hx
    obtain ⟨nm, st, usz⟩ := y
    rw [user_lines_go] at h
    cases hbig : is_big_enough o usz with
    | error e => rw [hbig] at h; simp at h
    | ok b =>
      rw [hbig] at h
      cases hrest : user_lines_go o d rest with
      | error e => rw [hrest] at h; simp at h
      | ok more =>
        rw [hrest] at h
        simp only [Except.ok.injEq] at h
        rw [← h] at hx
        rcases List.mem_append.mp hx with hx1 | hx2
        · cases b with
          | true =>
            simp only [if_true] at hx1
            simp only [List.mem_singleton] at hx1
            rw [hx1]
            rfl
          | false => simp at hx1
        · exact ih more hrest x hx2

/-- The user loop prints only user lines, never headers. -/
theorem user_lines_go_no_headers (o : RenderOpts) (d : ℕ) :
    ∀ (l : List (Str × User × ℚ)) (uls : List OutLine),
      user_lines_go o d l = .ok uls → ∀ x ∈ uls, ∀ d', isHeaderAt d' x = false := by
  intro l
  induction l with
  | nil =>
    intro uls h x hx
    rw [user_lines_go] at h
    simp only [Except.ok.injEq] at h
    rw [← h] at hx
    simp at hx
  | cons y rest ih =>
    intro uls h x hx
    obtain ⟨nm, st, usz⟩ := y
    rw [user_lines_go] at h
    cases hbig : is_big_enough o usz with
    | error e => rw [hbig] at h; simp at h
    | ok b =>
      rw [hbig] at h
      cases hrest : user_lines_go o d rest with
      | error e => rw [hrest] at h; simp at h
      | ok more =>
        rw [hrest] at h
        simp only [Except.ok.injEq] at h
        rw [← h] at hx
        rcases List.mem_append.mp hx with hx1 | hx2
        · cases b with
          | true =>
            simp only [if_true, List.mem_singleton] at hx1
            intro d'
            rw [hx1]
            rfl
          | false => simp at hx1
        · exact ih more hrest x hx2

/-- Exact output of the user loop when the total is nonzero: one user
line, at the given depth, for every triple passing the threshold test, in
order. -/
theorem user_lines_go_char (o : RenderOpts) (d : ℕ) (htot : o.total_size ≠ 0) :
    ∀ (l : List (Str × User × ℚ)),
      user_lines_go o d l
        = .ok ((l.filter (fun x => bigB o x.2.2)).map
            (fun x => OutLine.userline d x.2.1.name x.2.1.file_size x.2.1.count)) := by
  intro l
  induction l with
  | nil => rfl
  | cons y rest ih =>
    obtain ⟨nm, st, usz⟩ := y
    rw [user_lines_go, is_big_enough_eq htot, ih]
    by_cases hb : bigB o usz = true
    · simp [List.filter_cons, hb]
    · have hb' : bigB o usz = false := by
        cases hbb : bigB o usz
        · rfl
        · exact absurd hbb hb
      simp [List.filter_cons, hb']

/-- Every line printed for one child is at the child's depth or deeper. -/
theorem render_child_depth (o : RenderOpts)
    (recur : Tree → ℕ → Except RErr (List OutLine))
    (collapse : Str → Node → Except RErr (Str × Node))
    (path : Str) (node : Node) (d : ℕ) (block : List OutLine)
    (hrec : ∀ t ls, recur t (d + 1) = .ok ls → ∀ x ∈ ls, d + 1 ≤ lineDepth x)
    (h : render_child o recur collapse path node d = .ok block) :
    ∀ x ∈ block, d ≤ lineDepth x := by
  rw [render_child] at h
  cases hbig : is_big_enough o node.size with
  | error e => rw [hbig] at h; simp at h
  | ok b =>
    rw [hbig] at h
    cases b with
    | false =>
      simp only [Except.ok.injEq] at h
      rw [← h]
      intro x hx
      simp at hx
    | true =>
      cases hc : collapse path node with
      | error e => rw [hc] at h; simp at h
      | ok pn =>
        rw [hc] at h
        cases hshow : o.show_users with
        | false =>
          rw [hshow] at h
          simp only [Bool.false_eq_true, if_false] at h
          cases hs : recur pn.2.children (d + 1) with
          | error e => rw [hs] at h; simp at h
          | ok sub =>
            rw [hs] at h
            simp only [Except.ok.injEq] at h
            rw [← h]
            intro x hx
            rcases List.mem_cons.mp hx with hx0 | hx1
            · rw [hx0]; exact le_refl d
            · rcases List.mem_append.mp hx1 with hx2 | hx3
              · simp at hx2
              · exact le_trans (Nat.le_succ d) (hrec pn.2.children sub hs x hx3)
        | true =>
          rw [hshow] at h
          simp only [if_true] at h
          cases hu : user_lines o pn.2.users d with
          | error e => rw [hu] at h; simp at h
          | ok uls =>
            rw [hu] at h
            cases hs : recur pn.2.children (d + 1) with
            | error e => rw [hs] at h; simp at h
            | ok sub =>
              rw [hs] at h
              simp only [Except.ok.injEq] at h
              rw [← h]
              intro x hx
              rcases List.mem_cons.mp hx with hx0 | hx1
              · rw [hx0]; exact le_refl d
              · rcases List.mem_append.mp hx1 with hx2 | hx3
                · rw [user_lines] at hu
                  rw [user_lines_go_depth o d _ uls hu x hx2]
                · exact le_trans (Nat.le_succ d) (hrec pn.2.children sub hs x hx3)

/-- Every line printed by the child loop is at the loop's depth or
deeper. -/
theorem render_children_depth (o : RenderOpts)
    (recur : Tree → ℕ → Except RErr (List OutLine))
    (collapse : Str → Node → Except RErr (Str × Node)) (d : ℕ)
    (hrec : ∀ t ls, recur t (d + 1) = .ok ls → ∀ x ∈ ls, d + 1 ≤ lineDepth x) :
    ∀ (L : List (Str × Node × ℚ)) (ls : List OutLine),
      render_children o recur collapse L d = .ok ls → ∀ x ∈ ls, d ≤ lineDepth x := by
  intro L
  induction L with
  | nil =>
    intro ls h x hx
    rw [render_children] at h
    simp only [Except.ok.injEq] at h
    rw [← h] at hx
    simp at hx
  | cons y rest ih =>
    intro ls h x hx
    obtain ⟨path, node, sz⟩ := y
    rw [render_children] at h
    cases hb : render_child o recur collapse path node d with
    | error e => rw [hb] at h; simp at h
    | ok block =>
      rw [hb] at h
      cases hm : render_children o recur collapse rest d with
      | error e => rw [hm] at h; simp at h
      | ok more =>
        rw [hm] at h
        simp only [Except.ok.injEq] at h
        rw [← h] at hx
        rcases List.mem_append.mp hx with hx1 | hx2
        · exact render_child_depth o recur collapse path node d block hrec hb x hx1
        · exact ih more hm x hx2

/-- Every line printed by `render_rec` is at the call's depth or deeper. -/
theorem render_tree_depth (o : RenderOpts) :
    ∀ (f : ℕ) (t : Tree) (d : ℕ) (ls : List OutLine),
      render_tree o f t d = .ok ls → ∀ x ∈ ls, d ≤ lineDepth x := by
  intro f
  induction f with
  | zero =>
    intro t d ls h
    rw [render_tree] at h
    simp at h
  | succ f ih =>
    intro t d ls h
    rw [render_tree] at h
    by_cases hemp : t.isEmpty = true
    · rw [if_pos hemp] at h
      simp only [Except.ok.injEq] at h
      rw [← h]
      intro x hx
      simp at hx
    · rw [if_neg hemp] at h
      exact render_children_depth o (render_tree o f) (collapseF f) d
        (fun t' ls' h' => ih t' (d + 1) ls' h') (iter_by_size Node.size t) ls h

/-- The header lines contributed by one child at its own depth: exactly
one, carrying the node's (pre-collapse) size, when the threshold test
passes, and none otherwise. -/
theorem render_child_header_sizes (o : RenderOpts)
    (recur : Tree → ℕ → Except RErr (List OutLine))
    (collapse : Str → Node → Except RErr (Str × Node))
    (path : Str) (node : Node) (d : ℕ) (block : List OutLine)
    (htot : o.total_size ≠ 0)
    (hrec : ∀ t ls, recur t (d + 1) = .ok ls → ∀ x ∈ ls, d + 1 ≤ lineDepth x)
    (h : render_child o recur collapse path node d = .ok block) :
    (block.filter (isHeaderAt d)).map lineSize
      = if bigB o node.size then [node.size] else [] := by
  rw [render_child, is_big_enough_eq htot] at h
  by_cases hb : bigB o node.size = true
  · rw [hb] at h
    simp only at h
    cases hc : collapse path node with
    | error e => rw [hc] at h; simp at h
    | ok pn =>
      rw [hc] at h
      simp only at h
      have husers : ∀ uls, (if o.show_users then user_lines o pn.2.users d else .ok [])
          = .ok uls → uls.filter (isHeaderAt d) = [] := by
        intro uls hu
        cases hshow : o.show_users with
        | false =>
          rw [hshow] at hu
          simp only [Bool.false_eq_true, if_false, Except.ok.injEq] at hu
          rw [← hu]
          rfl
        | true =>
          rw [hshow] at hu
          simp only [if_true] at hu
          rw [user_lines] at hu
          apply List.filter_eq_nil_iff.mpr
          intro x hx
          have := user_lines_go_no_headers o d _ uls hu x hx d
          simp [this]
      cases hu : (if o.show_users then user_lines o pn.2.users d else .ok []) with
      | error e => rw [hu] at h; simp at h
      | ok uls =>
        rw [hu] at h
        simp only at h
        cases hs : recur pn.2.children (d + 1) with
        | error e => rw [hs] at h; simp at h
        | ok sub =>
          rw [hs] at h
          simp only [Except.ok.injEq] at h
          rw [← h]
          have hsubfilter : sub.filter (isHeaderAt d) = [] := by
            apply List.filter_eq_nil_iff.mpr
            intro x hx
            have hdep := hrec pn.2.children sub hs x hx
            have : lineDepth x ≠ d := by omega
            simp [isHeaderAt_false_of_depth_ne this]
          rw [List.filter_cons, List.filter_append, husers uls hu, hsubfilter]
          have hhd : isHeaderAt d (OutLine.header d pn.1 node.size) = true := by
            simp [isHeaderAt]
          rw [if_pos hhd]
          simp [lineSize, hb]
  · have hb' : bigB o node.size = false := by
      cases hbb : bigB o node.size
      · rfl
      · exact absurd hbb hb
    rw [hb'] at h
    simp only [Except.ok.injEq] at h
    rw [← h]
    simp [hb']

/-- The header lines of the child loop at its own depth: one per child
that passes the threshold test, in loop order, carrying that child's
(pre-collapse) node size. -/
theorem render_children_header_sizes (o : RenderOpts)
    (recur : Tree → ℕ → Except RErr (List OutLine))
    (collapse : Str → Node → Except RErr (Str × Node)) (d : ℕ)
    (htot : o.total_size ≠ 0)
    (hrec : ∀ t ls, recur t (d + 1) = .ok ls → ∀ x ∈ ls, d + 1 ≤ lineDepth x) :
    ∀ (L : List (Str × Node × ℚ)) (ls : List OutLine),
      render_children o recur collapse L d = .ok ls →
      (ls.filter (isHeaderAt d)).map lineSize
        = (L.filter (fun x => bigB o x.2.1.size)).map (fun x => x.2.1.size) := by
  intro L
  induction L with
  | nil =>
    intro ls h
    rw [render_children] at h
    simp only [Except.ok.injEq] at h
    rw [← h]
    rfl
  | cons y rest ih =>
    intro ls h
    obtain ⟨path, node, sz⟩ := y
    rw [render_children] at h
    cases hb : render_child o recur collapse path node d with
    | error e => rw [hb] at h; simp at h
    | ok block =>
      rw [hb] at h
      cases hm : render_children o recur collapse rest d with
      | error e => rw [hm] at h; simp at h
      | ok more =>
        rw [hm] at h
        simp only [Except.ok.injEq] at h
        rw [← h, List.filter_append, List.map_append,
          render_child_header_sizes o recur collapse path node d block htot hrec hb,
          ih more hm, List.filter_cons]
        by_cases hbig : bigB o node.size = true
        · rw [if_pos hbig, if_pos hbig]
          simp
        · have hbig' : bigB o node.size = false := by
            cases hbb : bigB o node.size
            · rfl
            · exact absurd hbb hbig
          rw [hbig', if_neg (by simp), if_neg (by simp [hbig'])]
          simp

/-- A child strictly below the threshold contributes nothing: the loop
continues with the remaining children without collapsing, printing or
recursing into it. -/
theorem render_children_skip (o : RenderOpts)
    (recur : Tree → ℕ → Except RErr (List OutLine))
    (collapse : Str → Node → Except RErr (Str × Node))
    (path : Str) (node : Node) (sz : ℚ) (rest : List (Str × Node × ℚ)) (d : ℕ)
    (htot : o.total_size ≠ 0)
    (hlt : node.size / o.total_size * 100 < o.percent_threshold) :
    render_children o recur collapse ((path, node, sz) :: rest) d
      = render_children o recur collapse rest d := by
  have hb : bigB o node.size = false := by
    simp only [bigB, decide_eq_false_iff_not, ge_iff_le, not_le]
    exact hlt
  rw [render_children, render_child, is_big_enough_eq htot, hb]
  simp only
  cases hm : render_children o recur collapse rest d with
  | error e => rfl
  | ok more => simp

/-- A child at or above the threshold is printed: the output starts with
its header line, carrying the node's size. -/
theorem render_children_shown (o : RenderOpts)
    (recur : Tree → ℕ → Except RErr (List OutLine))
    (collapse : Str → Node → Except RErr (Str × Node))
    (path : Str) (node : Node) (sz : ℚ) (rest : List (Str × Node × ℚ)) (d : ℕ)
    (ls : List OutLine)
    (htot : o.total_size ≠ 0)
    (hge : node.size / o.total_size * 100 ≥ o.percent_threshold)
    (h : render_children o recur collapse ((path, node, sz) :: rest) d = .ok ls) :
    ∃ (p' : Str) (tail : List OutLine),
      ls = OutLine.header d p' node.size :: tail := by
  have hb : bigB o node.size = true := by
    simp only [bigB, decide_eq_true_eq]
    exact hge
  rw [render_children, render_child, is_big_enough_eq htot, hb] at h
  simp only at h
  cases hc : collapse path node with
  | error e => rw [hc] at h; simp at h
  | ok pn =>
    rw [hc] at h
    simp only at h
    cases hu : (if o.show_users then user_lines o pn.2.users d else .ok []) with
    | error e => rw [hu] at h; simp at h
    | ok uls =>
      rw [hu] at h
      simp only at h
      cases hs : recur pn.2.children (d + 1) with
      | error e => rw [hs] at h; simp at h
      | ok sub =>
        rw [hs] at h
        simp only at h
        cases hm : render_children o recur collapse rest d with
        | error e => rw [hm] at h; simp at h
        | ok more =>
          rw [hm] at h
          simp only [Except.ok.injEq] at h
          exact ⟨pn.1, uls ++ sub ++ more, by rw [← h]; simp⟩

/-- When every child fails the threshold test the loop prints nothing at
all. -/
theorem render_children_all_small (o : RenderOpts)
    (recur : Tree → ℕ → Except RErr (List OutLine))
    (collapse : Str → Node → Except RErr (Str × Node)) (d : ℕ)
    (htot : o.total_size ≠ 0) :
    ∀ (L : List (Str × Node × ℚ)), (∀ x ∈ L, bigB o x.2.1.size = false) →
      render_children o recur collapse L d = .ok [] := by
  intro L
  induction L with
  | nil => intro _; rfl
  | cons y rest ih =>
    intro hall
    obtain ⟨path, node, sz⟩ := y
    have hb : bigB o node.size = false := hall (path, node, sz) (by simp)
    rw [render_children, render_child, is_big_enough_eq htot, hb]
    simp only
    rw [ih (fun x hx => hall x (by simp [hx]))]
    simp

/-- The header lines of `render_rec` at the depth of the call: one per
sorted child that passes the threshold test, in sorted order, carrying
the child's size. -/
theorem render_tree_header_sizes (o : RenderOpts) (f : ℕ) (t : Tree) (d : ℕ)
    (ls : List OutLine) (htot : o.total_size ≠ 0)
    (h : render_tree o f t d = .ok ls) :
    (ls.filter (isHeaderAt d)).map lineSize
      = ((iter_by_size Node.size t).filter (fun x => bigB o x.2.1.size)).map
          (fun x => x.2.1.size) := by
  cases f with
  | zero => rw [render_tree] at h; simp at h
  | succ f =>
    rw [render_tree] at h
    by_cases hemp : t.isEmpty = true
    · rw [if_pos hemp] at h
      simp only [Except.ok.injEq] at h
      rw [← h]
      have ht : t = [] := List.isEmpty_iff.mp hemp
      rw [ht]
      simp [iter_by_size, List.mergeSort_nil]
    · rw [if_neg hemp] at h
      exact render_children_header_sizes o (render_tree o f) (collapseF f) d htot
        (fun t' ls' h' => render_tree_depth o f t' (d + 1) ls' h')
        (iter_by_size Node.size t) ls h

/-- Modelled from the spec's words only (used to state the refuted
tiebreak of C6): strict ascending lexicographic order on component
names. -/
def nameAsc : Str → Str → Bool
  | [], [] => false
  | [], _ :: _ => true
  | _ :: _, [] => false
  | a :: as, b :: bs => if a < b then true else if b < a then false else nameAsc as bs

/-! ### The claims about the renderer and the pipeline -/

unseal Rat.mul Rat.inv Rat.add Rat.sub in
/-- C4 (code bug): the tokens `10B` and `12m` lie inside the documented
grammar `<number><unit>?` with unit in B, K, M, G, T case-insensitive
(the third and fourth conjuncts witness that their numeric parts parse
as plain numbers and that `10B` does not), yet the code neither returns
`10 * 1` nor `12 * 1024²`: the last character `B` is not in the list
checked at line 134, so it is kept as part of the number, `float("10B")`
fails, and the process exits via the `badSize` diagnostic; a lower-case
unit letter passes the check but is kept with its original case as the
`UNITS_IN_BYTES` key, so `12m` raises an uncaught `KeyError` instead of
returning a value or exiting with the diagnostic. -/
theorem size_in_bytes_unit_bugs :
    size_in_bytes (strL "10B") = .error (.badSize (strL "10B")) ∧
    size_in_bytes (strL "12m") = .error (.keyError (strL "m")) ∧
    pyFloat (strL "10") = some 10 ∧
    pyFloat (strL "10B") = none := by
  refine ⟨?_, ?_, ?_, ?_⟩ <;> decide

unseal Rat.mul Rat.inv Rat.add Rat.sub List.merge List.mergeSort in
/-- C5 (code bug): on the single input line `0 alice /a` the filtered
total size is zero but the total count is one, so `main` (which guards
on `total_count > 0`, not on a positive total size) invokes the
renderer, and `is_big_enough` divides by the zero total and raises
`ZeroDivisionError`; the claimed nothing-to-show message is not printed
and the division by zero is reached. -/
theorem main_zero_size_invokes_render :
    main_run default_args [strL "0 alice /a"] 6
      = .ok (.rendered (.error .divZero)) := by
  decide

unseal Rat.mul Rat.inv Rat.add Rat.sub List.merge List.mergeSort in
/-- C6 counterexample: with the equal-size sibling records `c` and `b`,
the rendering prints `c` before `b`, although ascending name order (the
claimed tiebreak, `nameAsc`) puts `b` first.  The children dictionary is
a fresh CPython 2 dict holding the single-character keys `c` and `b`;
CPython 2.7's `string_hash` gives a one-character string `s` the value
`((1000003 * (ord s << 7)) ^ ord s) ^ 1`, whose low three bits are
`(ord s ^ 1) & 7` since `1000003 * (ord s * 128)` is divisible by 8, so
in the 8-slot table `c` occupies slot 2 and `b` slot 3 (no collision, no
resize at two entries, hash randomization off by default in Python 2).
The dict therefore enumerates `c` before `b` — exactly the model's list
order at this insertion order — and the stable descending sort keeps
that tie order, so the program prints `c` then `b`, refuting the
name-ascending tie rule. -/
theorem sibling_tie_not_name_ascending :
    render_tree ⟨2, 1, false, 8, 1⟩ 3
        (build [⟨strL "c", 1, strL "u"⟩, ⟨strL "b", 1, strL "u"⟩]) 0
      = .ok [.header 0 (strL "c") 1, .header 0 (strL "b") 1] ∧
    nameAsc (strL "b") (strL "c") = true := by
  refine ⟨?_, ?_⟩ <;> decide

/-- C6 (amended): at every level the displayed siblings appear in
non-increasing order of size (first conjunct, for every enumeration
order of the children dictionary, hence in particular for CPython 2's
hash-slot order), and the per-owner listings of each node are likewise
non-increasing in size (second conjunct); ties, however, are not broken
by name: the sort is stable, leaving equal-size entries in whatever
order the dictionary enumerates them (third conjunct) — in CPython 2
that is hash-slot order, which is independent of insertion order and is
not ascending name order, as the counterexample shows. -/
theorem siblings_sorted_by_size :
    (∀ (o : RenderOpts) (f : ℕ) (t : Tree) (d : ℕ) (ls : List OutLine),
        o.total_size ≠ 0 → render_tree o f t d = .ok ls →
        ((ls.filter (isHeaderAt d)).map lineSize).Pairwise (fun a b : ℚ => b ≤ a)) ∧
    (∀ (o : RenderOpts) (us : List (Str × User)) (d : ℕ) (ls : List OutLine),
        o.total_size ≠ 0 → user_lines o us d = .ok ls →
        (ls.map lineSize).Pairwise (fun a b : ℚ => b ≤ a)) ∧
    (∀ (α : Type) (sz : α → ℚ) (d : List (Str × α)) (x y : Str × α × ℚ),
        y.2.2 ≤ x.2.2 →
        List.Sublist [x, y] (d.map (fun kv => (kv.1, kv.2, sz kv.2))) →
        List.Sublist [x, y] (iter_by_size sz d)) := by
  refine ⟨?_, ?_, fun α sz d x y hxy h => iter_by_size_stable sz d x y hxy h⟩
  · intro o f t d ls htot h
    rw [render_tree_header_sizes o f t d ls htot h]
    have hcong :
        ((iter_by_size Node.size t).filter (fun x => bigB o x.2.1.size)).map
            (fun x => x.2.1.size)
          = ((iter_by_size Node.size t).filter (fun x => bigB o x.2.1.size)).map
              (fun x => x.2.2) := by
      apply List.map_congr_left
      intro x hx
      have hmem := (List.mem_filter.mp hx).1
      exact ((iter_by_size_mem Node.size t x hmem).1).symm
    rw [hcong]
    have hsub : List.Sublist
        (((iter_by_size Node.size t).filter (fun x => bigB o x.2.1.size)).map
          (fun x => x.2.2))
        ((iter_by_size Node.size t).map (fun x => x.2.2)) :=
      (List.filter_sublist _).map _
    exact (iter_by_size_sizes_sorted Node.size t).sublist hsub
  · intro o us d ls htot h
    rw [user_lines, user_lines_go_char o d htot] at h
    simp only [Except.ok.injEq] at h
    rw [← h, List.map_map]
    have hstep :
        ((iter_by_size User.size us).filter (fun x => bigB o x.2.2)).map
            (lineSize ∘ fun x => OutLine.userline d x.2.1.name x.2.1.file_size x.2.1.count)
          = ((iter_by_size User.size us).filter (fun x => bigB o x.2.2)).map
              (fun x => x.2.2) := by
      apply List.map_congr_left
      intro x hx
      have hmem := (List.mem_filter.mp hx).1
      have hx22 := (iter_by_size_mem User.size us x hmem).1
      show lineSize (OutLine.userline d x.2.1.name x.2.1.file_size x.2.1.count) = x.2.2
      exact hx22.symm
    rw [hstep]
    have hsub : List.Sublist
        (((iter_by_size User.size us).filter (fun x => bigB o x.2.2)).map
          (fun x => x.2.2))
        ((iter_by_size User.size us).map (fun x => x.2.2)) :=
      (List.filter_sublist _).map _
    exact (iter_by_size_sizes_sorted User.size us).sublist hsub

unseal Rat.mul Rat.inv Rat.add Rat.sub List.merge List.mergeSort in
/-- Witness for the amended C6, applying all three conjuncts at concrete
inputs. -/
theorem siblings_sorted_by_size_witness :
    (([OutLine.header 0 (strL "c") 1, OutLine.header 0 (strL "b") 1].filter
        (isHeaderAt 0)).map lineSize).Pairwise (fun a b : ℚ => b ≤ a) ∧
    (([OutLine.userline 0 (strL "u") 3 1, OutLine.userline 0 (strL "v") 1 1].map
        lineSize)).Pairwise (fun a b : ℚ => b ≤ a) ∧
    List.Sublist
      [(strL "c", Node.mk [] [(strL "u", ⟨strL "u", 1, 1⟩)],
          Node.size (Node.mk [] [(strL "u", ⟨strL "u", 1, 1⟩)])),
        (strL "b", Node.mk [] [(strL "u", ⟨strL "u", 1, 1⟩)],
          Node.size (Node.mk [] [(strL "u", ⟨strL "u", 1, 1⟩)]))]
      (iter_by_size Node.size
        [(strL "c", Node.mk [] [(strL "u", ⟨strL "u", 1, 1⟩)]),
         (strL "b", Node.mk [] [(strL "u", ⟨strL "u", 1, 1⟩)])]) :=
  ⟨siblings_sorted_by_size.1 ⟨2, 1, false, 8, 1⟩ 3
      (build [⟨strL "c", 1, strL "u"⟩, ⟨strL "b", 1, strL "u"⟩]) 0
      [OutLine.header 0 (strL "c") 1, OutLine.header 0 (strL "b") 1]
      (by norm_num) (by decide),
   siblings_sorted_by_size.2.1 ⟨4, 1, true, 8, 1⟩
      [(strL "u", ⟨strL "u", 3, 1⟩), (strL "v", ⟨strL "v", 1, 1⟩)] 0
      [OutLine.userline 0 (strL "u") 3 1, OutLine.userline 0 (strL "v") 1 1]
      (by norm_num) (by decide),
   siblings_sorted_by_size.2.2 Node (Node.size)
      [(strL "c", Node.mk [] [(strL "u", ⟨strL "u", 1, 1⟩)]),
       (strL "b", Node.mk [] [(strL "u", ⟨strL "u", 1, 1⟩)])]
      (strL "c", Node.mk [] [(strL "u", ⟨strL "u", 1, 1⟩)],
        Node.size (Node.mk [] [(strL "u", ⟨strL "u", 1, 1⟩)]))
      (strL "b", Node.mk [] [(strL "u", ⟨strL "u", 1, 1⟩)],
        Node.size (Node.mk [] [(strL "u", ⟨strL "u", 1, 1⟩)]))
      (le_refl _) (List.Sublist.refl _)⟩

/-- C7: threshold pruning.  First conjunct: a child whose percentage of
the total is strictly below the threshold is omitted together with its
entire subtree — the loop is literally the loop on the remaining
children, so the child is neither collapsed, nor printed, nor recursed
into.  Second conjunct: a child at or above the threshold is printed,
its header leading its block.  Third conjunct: with threshold 0 (and
nonnegative sizes under a positive total) no child is pruned at any
level — the headers list every sorted child, so every node with nonzero
size is displayed.  Fourth conjunct: with threshold 100.0001 (and every
child size at most the total) nothing at all is displayed. -/
theorem threshold_pruning :
    (∀ (o : RenderOpts) (recur : Tree → ℕ → Except RErr (List OutLine))
        (collapse : Str → Node → Except RErr (Str × Node))
        (path : Str) (node : Node) (sz : ℚ) (rest : List (Str × Node × ℚ)) (d : ℕ),
        o.total_size ≠ 0 → node.size / o.total_size * 100 < o.percent_threshold →
        render_children o recur collapse ((path, node, sz) :: rest) d
          = render_children o recur collapse rest d) ∧
    (∀ (o : RenderOpts) (recur : Tree → ℕ → Except RErr (List OutLine))
        (collapse : Str → Node → Except RErr (Str × Node))
        (path : Str) (node : Node) (sz : ℚ) (rest : List (Str × Node × ℚ)) (d : ℕ)
        (ls : List OutLine),
        o.total_size ≠ 0 → node.size / o.total_size * 100 ≥ o.percent_threshold →
        render_children o recur collapse ((path, node, sz) :: rest) d = .ok ls →
        ∃ (p' : Str) (tail : List OutLine),
          ls = OutLine.header d p' node.size :: tail) ∧
    (∀ (o : RenderOpts) (f : ℕ) (t : Tree) (d : ℕ) (ls : List OutLine),
        0 < o.total_size → o.percent_threshold = 0 → (∀ x ∈ t, 0 ≤ x.2.size) →
        render_tree o f t d = .ok ls →
        (ls.filter (isHeaderAt d)).map lineSize
          = (iter_by_size Node.size t).map (fun x => x.2.1.size)) ∧
    (∀ (o : RenderOpts) (f : ℕ) (t : Tree) (d : ℕ),
        0 < o.total_size → o.percent_threshold = 1000001 / 10000 →
        (∀ x ∈ t, x.2.size ≤ o.total_size) →
        render_tree o (f + 1) t d = .ok []) := by
  refine ⟨render_children_skip, render_children_shown, ?_, ?_⟩
  · intro o f t d ls htot hthr hsizes h
    rw [render_tree_header_sizes o f t d ls htot.ne' h]
    have hall : (iter_by_size Node.size t).filter (fun x => bigB o x.2.1.size)
        = iter_by_size Node.size t := by
      apply List.filter_eq_self.mpr
      intro x hx
      obtain ⟨hszeq, hmem⟩ := iter_by_size_mem Node.size t x hx
      have hnn : 0 ≤ x.2.1.size := hsizes (x.1, x.2.1) hmem
      simp only [bigB, decide_eq_true_eq, hthr, ge_iff_le]
      exact mul_nonneg (div_nonneg hnn htot.le) (by norm_num)
    rw [hall]
  · intro o f t d htot hthr hsizes
    rw [render_tree]
    by_cases hemp : t.isEmpty = true
    · rw [if_pos hemp]
    · rw [if_neg hemp]
      apply render_children_all_small o (render_tree o f) (collapseF f) d htot.ne'
      intro x hx
      obtain ⟨hszeq, hmem⟩ := iter_by_size_mem Node.size t x hx
      have hle : x.2.1.size ≤ o.total_size := hsizes (x.1, x.2.1) hmem
      simp only [bigB, decide_eq_false_iff_not, ge_iff_le, not_le, hthr]
      have h1 : x.2.1.size / o.total_size ≤ 1 := (div_le_one htot).mpr hle
      have h2 : x.2.1.size / o.total_size * 100 ≤ 100 := by nlinarith
      nlinarith

unseal Rat.mul Rat.inv Rat.add Rat.sub List.merge List.mergeSort in
/-- Witness for C7: a zero-size child under threshold 1 is skipped, and
threshold 100.0001 over a tree whose only node holds 3 of the total 4
bytes displays nothing. -/
theorem threshold_pruning_witness :
    render_children ⟨10, 1, false, 8, 1⟩ (render_tree ⟨10, 1, false, 8, 1⟩ 1) (collapseF 1)
        [(strL "x", Node.mk [] [(strL "u", ⟨strL "u", 0, 1⟩)], 0)] 0
      = render_children ⟨10, 1, false, 8, 1⟩ (render_tree ⟨10, 1, false, 8, 1⟩ 1)
          (collapseF 1) [] 0 ∧
    render_tree ⟨4, 1000001 / 10000, false, 8, 1⟩ 3
        [(strL "x", Node.mk [] [(strL "u", ⟨strL "u", 3, 1⟩)])] 0 = .ok [] :=
  ⟨threshold_pruning.1 ⟨10, 1, false, 8, 1⟩ (render_tree ⟨10, 1, false, 8, 1⟩ 1)
      (collapseF 1) (strL "x") (Node.mk [] [(strL "u", ⟨strL "u", 0, 1⟩)]) 0 [] 0
      (by norm_num) (by decide),
   threshold_pruning.2.2.2 ⟨4, 1000001 / 10000, false, 8, 1⟩ 2
      [(strL "x", Node.mk [] [(strL "u", ⟨strL "u", 3, 1⟩)])] 0
      (by norm_num) rfl (by decide)⟩

unseal Rat.mul Rat.inv Rat.add Rat.sub List.merge List.mergeSort in
/-- C8 counterexample: in the trie of `/a` (1 byte) and `/a/b` (1 byte)
the root chain `/ → a` collapses into the single displayed path `/a/b`,
but the printed size is 2 — the size of the node where collapsing
started, computed before the loop — while the collapsed-into child `b`
has size 1: the rendering does not descend into the child's size. -/
theorem chain_collapse_shows_parent_size :
    render_tree ⟨2, 1, false, 8, 1⟩ 5
        (build [⟨strL "/a", 1, strL "u"⟩, ⟨strL "/a/b", 1, strL "u"⟩]) 0
      = .ok [.header 0 (strL "/a/b") 2] ∧
    sizeO (findNode (build [⟨strL "/a", 1, strL "u"⟩, ⟨strL "/a/b", 1, strL "u"⟩])
        (strL "/") [strL "a", strL "b"]) = 1 := by
  refine ⟨?_, ?_⟩ <;> decide

unseal Rat.mul Rat.inv Rat.add Rat.sub List.merge List.mergeSort in
/-- C8 (amended): while the node being printed has exactly one child,
the child's component name is appended to the displayed path — joined by
the separator except directly concatenated when the accumulated path is
exactly the root marker — and printing descends into that child's owners
and children (first and second conjuncts describe one step and the exit
of the loop); the printed size, however, is the size of the node where
the collapsing started, not the final child's.  A trie containing only
the chain `/a/b/c/file` renders as the single line `/a/b/c/file` at
depth 0 (third conjunct), never as four separately indented lines. -/
theorem chain_collapsing :
    (∀ (f : ℕ) (path c : Str) (child : Node) (us : List (Str × User)),
        collapseF (f + 1) path (Node.mk [(c, child)] us)
          = collapseF f (if path = strL "/" then path ++ c else path ++ '/' :: c) child) ∧
    (∀ (f : ℕ) (path : Str) (n : Node), n.children.length ≠ 1 →
        collapseF f path n = .ok (path, n)) ∧
    render_tree ⟨5, 1, false, 8, 1⟩ 6 (build [⟨strL "/a/b/c/file", 5, strL "u"⟩]) 0
      = .ok [.header 0 (strL "/a/b/c/file") 5] := by
  refine ⟨fun f path c child us => rfl, ?_, by decide⟩
  intro f path n h
  cases n with
  | mk ch us =>
    cases ch with
    | nil => cases f <;> rfl
    | cons x ch' =>
      cases ch' with
      | nil => simp at h
      | cons y ch'' => cases f <;> rfl

/-- Witness for the amended C8: one collapsing step at the root marker
and the exit of the loop at a childless node. -/
theorem chain_collapsing_witness :
    collapseF 1 (strL "/") (Node.mk [(strL "a", Node.mk [] [])] [])
      = collapseF 0 (if strL "/" = strL "/" then strL "/" ++ strL "a"
          else strL "/" ++ '/' :: strL "a") (Node.mk [] []) ∧
    collapseF 2 (strL "/x") (Node.mk [] [(strL "u", ⟨strL "u", 1, 1⟩)])
      = .ok (strL "/x", Node.mk [] [(strL "u", ⟨strL "u", 1, 1⟩)]) :=
  ⟨chain_collapsing.1 0 (strL "/") (strL "a") (Node.mk [] []) [],
   chain_collapsing.2.1 2 (strL "/x") (Node.mk [] [(strL "u", ⟨strL "u", 1, 1⟩)])
     (by decide)⟩

end FileUsage
